import Mathlib

/-!
Formal model of the band-excitation loop fitting pipeline implemented in
pycroscopy (analysis/be_loop_model.py).  Numeric arrays are modelled as
lists of rationals, machine integers as Nat/Int with explicit truncation,
and fallible operations return Option.  Each definition mirrors one piece
of the source; theorems at the end settle the specification claims.
-/

/- ============================================================ -/
/- Shared primitives                                             -/
/- ============================================================ -/

/-- Model of numpy roll: np.roll(l, s)[i] = l[(i - s) mod n], which is a
left rotation by (-s) mod n. -/
def np_roll {α : Type} (l : List α) (sh : Int) : List α :=
  if l.length = 0 then l else l.rotate (((-sh) % (l.length : Int)).toNat)

/-- Model of BELoopModel.shift_vdc: shift_ind = int(-1 * len(vdc_vec) / 4)
(python float division truncated toward zero, equal to -(len / 4) with Nat
division since len is nonnegative), and the vector rolled by that amount. -/
def shift_vdc (vdc_vec : List ℚ) : Int × List ℚ :=
  let shift_ind : Int := -((vdc_vec.length / 4 : Nat) : Int)
  (shift_ind, np_roll vdc_vec shift_ind)

/- ============================================================ -/
/- Chunk planner: BELoopModel._get_sho_chunk_sizes                -/
/- ============================================================ -/

/-- Result record of the chunk planner.  The source stores these on self;
there is no error channel: the function always succeeds. -/
structure ShoChunkSizes where
  max_pos : Nat
  sho_spec_inds_per_forc : Nat
  metrics_spec_inds_per_forc : Nat
deriving DecidableEq

/-- Model of BELoopModel._get_sho_chunk_sizes.  The source computes
size_per_forc = num_dc_steps * loops_per_forc * len(dtype) * itemsize and
max_pos = int(max_mem_mb * 1024 ** 2 / (size_per_forc * 3.5)); with exact
arithmetic that truncation equals Nat division of twice the byte budget by
7 * size_per_forc (3.5 = 7/2, and 3.5 as well as these products are exact
in double precision for realistic sizes).  self.max_pos is then clamped by
the total position count.  No error is ever raised. -/
def get_sho_chunk_sizes (max_mem_mb num_dc_steps loops_per_forc num_dtype_fields itemsize
    num_pos sho_spec_cols met_spec_cols num_forcs num_forc_repeats : Nat) : ShoChunkSizes :=
  let size_per_forc := num_dc_steps * loops_per_forc * num_dtype_fields * itemsize
  let max_pos := max_mem_mb * 1048576 * 2 / (7 * size_per_forc)
  ⟨min num_pos max_pos,
   sho_spec_cols / num_forcs / num_forc_repeats,
   met_spec_cols / num_forcs / num_forc_repeats⟩

/- ============================================================ -/
/- Cluster count: BELoopModel._guess_loops, step 1                -/
/- ============================================================ -/

/-- Model of num_clusters = max(2, int(projected_loops_2d.shape[0] ** 0.5))
from _guess_loops: the floor of the square root, clamped below by 2. -/
def num_clusters (num_loops : Nat) : Nat := max 2 (Nat.sqrt num_loops)

/-- Modelled from the spec: nearest-integer rounding of a square root,
round(sqrt n).  round(sqrt n) = sqrt n + 1 exactly when
sqrt n ^ 2 + sqrt n < n (the tie n = s^2 + s + 1/4 is never an integer). -/
def round_sqrt (n : Nat) : Nat :=
  if Nat.sqrt n * Nat.sqrt n + Nat.sqrt n < n then Nat.sqrt n + 1 else Nat.sqrt n

/-- Modelled from the spec: the claimed cluster count
k = max(2, round(sqrt(num_loops))). -/
def claimed_num_clusters (n : Nat) : Nat := max 2 (round_sqrt n)

/- ============================================================ -/
/- Fit driver: BELoopModel.do_fit chunk loop                      -/
/- ============================================================ -/

/-- Model of the chunk loop inside BELoopModel.do_fit.  The source computes
loops_2d from the FIRST chunk only, shifts it once before the while loop
(loops_2d_shifted = np.roll(loops_2d, shift_ind, axis=0).T), and then for
every loaded guess chunk calls the solver with that same loops_2d_shifted,
the current guess chunk and the shifted bias vector.  This function returns
the list of (data, guess, shifted bias) triples passed to the solver, one
per processed chunk, in order. -/
def do_fit_fit_inputs (dc_vec : List ℚ) (projChunks guessChunks : List (List (List ℚ))) :
    List ((List (List ℚ)) × (List (List ℚ)) × List ℚ) :=
  match projChunks with
  | [] => []
  | c0 :: _ =>
    let s := shift_vdc dc_vec
    let loops_2d_shifted := (np_roll c0 s.1).transpose
    guessChunks.map (fun g => (loops_2d_shifted, g, s.2))

/-- Modelled from the spec: the fit driver per chunk takes the stored
projected loop values OF THAT CHUNK rolled by the quarter-cycle shift,
together with that chunk guesses and the shifted bias vector. -/
def do_fit_fit_inputs_spec (dc_vec : List ℚ) (projChunks guessChunks : List (List (List ℚ))) :
    List ((List (List ℚ)) × (List (List ℚ)) × List ℚ) :=
  let s := shift_vdc dc_vec
  List.zipWith (fun c g => ((np_roll c s.1).transpose, g, s.2)) projChunks guessChunks

/- ============================================================ -/
/- Missing-guess precondition: BELoopModel.do_fit entry           -/
/- ============================================================ -/

/-- State of the model object as relevant to the fit precondition: the
guess dataset (set by do_guess or _set_guess) and the fit dataset. -/
structure LoopModelState where
  h5_guess : Option (List (List ℚ))
  h5_fit : Option (List (List ℚ))
deriving DecidableEq

/-- Model of the entry logic of BELoopModel.do_fit: if an h5_guess argument
is given it is installed via _set_guess; otherwise, if self.h5_guess is
None the method prints a message and returns None without creating the fit
dataset or doing any fitting; otherwise the fit dataset is created and the
per-pixel fit runs (abstracted here as fit_one per guess row). -/
def do_fit_model (st : LoopModelState) (h5_guess_arg : Option (List (List ℚ)))
    (fit_one : List ℚ → List ℚ) : LoopModelState × Option (List (List ℚ)) :=
  let st1 := match h5_guess_arg with
             | some g => { st with h5_guess := some g }
             | none => st
  match st1.h5_guess with
  | none => (st1, none)
  | some gt =>
      let fit := gt.map fit_one
      ({ st1 with h5_fit := some fit }, some fit)

/- ============================================================ -/
/- Parameter extraction: BELoopModel.extract_loop_parameters      -/
/- ============================================================ -/

/-- Row-major regrouping of a flat list into rows of the given width.
Models the final reshape back to the shape of the fit dataset. -/
def chunk_rows {α : Type} (cols : Nat) (l : List α) : List (List α) :=
  if h : cols = 0 ∨ l.length = 0 then [] else l.take cols :: chunk_rows cols (l.drop cols)
termination_by l.length
decreasing_by
  push_neg at h
  simp only [List.length_drop]
  omega

/-- Model of the static method BELoopModel.extract_loop_parameters.  A fit
record is its vector of 9 coefficients plus the goodness scalar; the
method flattens the 2-D fit table, converts each compound record to a
scalar vector, applies calc_switching_coef_vec (a per-record closed-form
computation, here the parameter calc_one, modelled from the spec since
utils/be_loop.py is outside the provided sources) with the nucleation
threshold, and reshapes the result back to the table shape. -/
def extract_loop_parameters (calc_one : List ℚ → ℚ → List ℚ)
    (fit_table : List (List (List ℚ))) (nuc_threshold : ℚ) : List (List (List ℚ)) :=
  let flat := fit_table.flatten
  let switching := flat.map (fun r => calc_one r nuc_threshold)
  chunk_rows (fit_table.headD []).length switching

/- ============================================================ -/
/- Guess chunk read: BELoopModel._get_guess_chunk                 -/
/- ============================================================ -/

/-- Compound record layout loop_fit32: nine model coefficients a_0..a_4,
b_0..b_3 followed by the R2 Criterion goodness scalar. -/
structure LoopFitRec where
  a_0 : ℚ
  a_1 : ℚ
  a_2 : ℚ
  a_3 : ℚ
  a_4 : ℚ
  b_0 : ℚ
  b_1 : ℚ
  b_2 : ℚ
  b_3 : ℚ
  r2 : ℚ
deriving DecidableEq

/-- Model of compound_to_scalar on one loop_fit32 record: the ordered
vector of its ten fields. -/
def compound_to_scalar_row (r : LoopFitRec) : List ℚ :=
  [r.a_0, r.a_1, r.a_2, r.a_3, r.a_4, r.b_0, r.b_1, r.b_2, r.b_3, r.r2]

/-- Model of the final statement of _get_guess_chunk:
self.guess = compound_to_scalar(guess)[:, :-1], dropping the last field of
every record before handing the guesses to the solver. -/
def get_guess_vec (recs : List LoopFitRec) : List (List ℚ) :=
  recs.map (fun r => (compound_to_scalar_row r).dropLast)

/- ============================================================ -/
/- Reshape engine: _reshape_sho_matrix and its inverse            -/
/- ============================================================ -/

/-- A numpy ndarray modelled as a shape vector plus row-major flat data. -/
structure NDArr (α : Type) where
  shape : List Nat
  data : List α
deriving DecidableEq

/-- Row-major linearization of a multi-index against a shape. -/
def flat_index : List Nat → List Nat → Nat
  | _, [] => 0
  | [], _ :: _ => 0
  | _ :: ds, i :: is => i * ds.prod + flat_index ds is

/-- Row-major multi-index of a flat position against a shape. -/
def unflatten_index : List Nat → Nat → List Nat
  | [], _ => []
  | _ :: ds, k => (k / ds.prod) :: unflatten_index ds (k % ds.prod)

/-- Position of the first occurrence of a value in a list (length if
absent); used to invert an axis permutation. -/
def find_pos (k : Nat) : List Nat → Nat
  | [] => 0
  | a :: t => if a = k then 0 else find_pos k t + 1

/-- Multi-index of the transpose source: for np.transpose(a, axes) the
element at output index idx comes from input index jdx with
jdx[axes[j]] = idx[j], that is jdx[k] = idx[position of k in axes]. -/
def inv_apply (axes : List Nat) (idx : List Nat) : List Nat :=
  (List.range axes.length).map (fun k => idx.getD (find_pos k axes) 0)

/-- Validity of a multi-index for a shape. -/
def valid_index (idx s : List Nat) : Prop :=
  idx.length = s.length ∧ ∀ j, j < s.length → idx.getD j 0 < s.getD j 0

/-- Model of np.transpose(a, axes): output shape is the axes-permuted
shape, and the element at each output position is read from the
permutation-inverted input position. -/
def np_transpose {α : Type} [Inhabited α] (axes : List Nat) (a : NDArr α) : NDArr α :=
  let s2 := axes.map (fun i => a.shape.getD i 0)
  ⟨s2, (List.range s2.prod).map
        (fun k => a.data.getD (flat_index a.shape (inv_apply axes (unflatten_index s2 k))) default)⟩

/-- Permutation moving the DC offset axis to the front, as built in
_reshape_sho_matrix: [dc] + list(range(dc)) + list(range(dc + 1, n)). -/
def order_dc_outside_nd (d n : Nat) : List Nat :=
  d :: (List.range d ++ (List.range (n - (d + 1))).map (fun i => i + (d + 1)))

/-- Reverse permutation returned by _reshape_sho_matrix:
list(range(1, dc + 1)) + [0] + list(range(dc + 1, n)). -/
def order_dc_offset_reverse (d n : Nat) : List Nat :=
  (List.range d).map (fun i => i + 1) ++ 0 :: (List.range (n - (d + 1))).map (fun i => i + (d + 1))

/-- Modelled from the spec: reshape_to_Ndims (io/hdf_utils.py, outside the
provided sources) reinterprets the flat [positions x spectroscopic-column]
chunk as an N-dimensional tensor with the position axis outermost and the
spectroscopic axes ordered as in the axis model; it fails (success flag
False) when the element count does not factor into the expected shape. -/
def reshape_to_Ndims {α : Type} (raw : NDArr α) (dims : List Nat) : Option (NDArr α) :=
  match raw.shape with
  | [pos, cols] =>
      if cols = dims.prod ∧ raw.data.length = pos * dims.prod
      then some ⟨pos :: dims, raw.data⟩ else none
  | _ => none

/-- Modelled from the spec: reshape_from_Ndims collapses all axes after the
position axis back into one flat spectroscopic-column axis. -/
def reshape_from_Ndims {α : Type} (a : NDArr α) : Option (NDArr α) :=
  match a.shape with
  | pos :: rest => some ⟨[pos, rest.prod], a.data⟩
  | [] => none

/-- Model of BELoopModel._reshape_sho_matrix: reshape the raw 2-D chunk to
N dimensions (None on failure, as the source warns and returns None);
transpose the DC offset axis to the front; collapse the remaining axes,
returning the 2-D loops, the reverse axis order and the N-D shape. -/
def reshape_sho_matrix {α : Type} [Inhabited α] (raw : NDArr α) (dims : List Nat) (d : Nat) :
    Option (NDArr α × List Nat × List Nat) :=
  match reshape_to_Ndims raw dims with
  | none => none
  | some fit_nd =>
      let n := fit_nd.shape.length
      let fit_nd2 := np_transpose (order_dc_outside_nd d n) fit_nd
      some (⟨[fit_nd2.shape.headD 0, (fit_nd2.shape.drop 1).prod], fit_nd2.data⟩,
            order_dc_offset_reverse d n, fit_nd2.shape)

/-- Model of BELoopModel._reshape_projected_loops_for_h5: reshape the 2-D
values to the recorded N-D shape (np.reshape fails on an element-count
mismatch), transpose by the reverse order, and collapse back to
[position x spectroscopic-column] (None on failure). -/
def reshape_projected_loops_for_h5 {α : Type} [Inhabited α] (v : NDArr α)
    (rord ndshape : List Nat) : Option (NDArr α) :=
  if v.data.length = ndshape.prod then
    reshape_from_Ndims (np_transpose rord ⟨ndshape, v.data⟩)
  else none

/- ============================================================ -/
/- Guess cascade: _guess_loops and _loop_fit_tree                 -/
/- ============================================================ -/

/-- Result of one nonlinear loop fit (scipy OptimizeResult as used by the
source): x holds the 9 model coefficients, res the residual vector
(the field named fun in scipy). -/
structure FitRes where
  x : List ℚ
  res : List ℚ
deriving DecidableEq

/-- Modelled from the spec: the ClusterTree built over the k-means
centroids (utils/tree.py is outside the provided sources).  Per the spec
the linkage tree is binary: each leaf is one centroid, each internal node
a merged pair; every node carries a name and a mean curve (value). -/
inductive CTree where
  | leaf (nm : Nat) (value : List ℚ)
  | branch (nm : Nat) (value : List ℚ) (l r : CTree)
deriving DecidableEq

/-- Name of the root node of a tree. -/
def CTree.name : CTree → Nat
  | .leaf nm _ => nm
  | .branch nm _ _ _ => nm

/-- Mean curve of the root node of a tree. -/
def CTree.value : CTree → List ℚ
  | .leaf _ v => v
  | .branch _ v _ _ => v

/-- Names of all nodes of a tree, root first. -/
def CTree.names : CTree → List Nat
  | .leaf nm _ => [nm]
  | .branch nm _ l r => nm :: (l.names ++ r.names)

/-- All (parent, child) edges of a tree. -/
def child_pairs : CTree → List (CTree × CTree)
  | .leaf _ _ => []
  | .branch nm v l r =>
      (CTree.branch nm v l r, l) :: (CTree.branch nm v l r, r)
        :: (child_pairs l ++ child_pairs r)

/-- Model of the recursive _loop_fit_tree inside _guess_loops: fit the
current node value (rolled by the quarter-cycle shift) seeded with the
guess stored under its name; record the result under its name; then for
each child store the CURRENT FIT COEFFICIENTS as that child guess and
recurse, threading the guess and fit stores through the children in
order.  F models fit_loop (utils/be_loop.py, outside the provided
sources) applied to the shifted bias vector, the rolled curve and the
guess. -/
def loop_fit_tree (F : List ℚ → List ℚ → List ℚ → FitRes) (vdc_shifted : List ℚ)
    (shift_ind : Int) : CTree → (Nat → List ℚ) → (Nat → Option FitRes) →
    (Nat → List ℚ) × (Nat → Option FitRes)
  | .leaf nm v, gm, fr =>
      let curr := F vdc_shifted (np_roll v shift_ind) (gm nm)
      (gm, fun k => if k = nm then some curr else fr k)
  | .branch nm v l r, gm, fr =>
      let curr := F vdc_shifted (np_roll v shift_ind) (gm nm)
      let fr1 : Nat → Option FitRes := fun k => if k = nm then some curr else fr k
      let gml : Nat → List ℚ := fun k => if k = l.name then curr.x else gm k
      let stl := loop_fit_tree F vdc_shifted shift_ind l gml fr1
      let gmr : Nat → List ℚ := fun k => if k = r.name then curr.x else stl.1 k
      loop_fit_tree F vdc_shifted shift_ind r gmr stl.2

/-- Reference recursion for the tree fit: the association list of
(node name, fit result) produced when the root is seeded with g, children
seeded with the parent fit coefficients. -/
def tree_fits (F : List ℚ → List ℚ → List ℚ → FitRes) (vdc : List ℚ) (sh : Int)
    (g : List ℚ) : CTree → List (Nat × FitRes)
  | .leaf nm v => [(nm, F vdc (np_roll v sh) g)]
  | .branch nm v l r =>
      let f := F vdc (np_roll v sh) g
      (nm, f) :: (tree_fits F vdc sh f.x l ++ tree_fits F vdc sh f.x r)

/-- First-match association lookup by node name. -/
def alookup (n : Nat) : List (Nat × FitRes) → Option FitRes
  | [] => none
  | (k, v) :: t => if n = k then some v else alookup n t

/-- Left-biased choice of optional fit results. -/
def opt_or (o o2 : Option FitRes) : Option FitRes :=
  match o with
  | some v => some v
  | none => o2

/-- Guess record layout assembled per pixel by _guess_loops: the 9 fit
coefficients of a cluster plus the goodness score
r2 = 1 - sum(abs(residuals ** 2)). -/
structure GuessRec where
  coeffs : List ℚ
  r2 : ℚ
deriving DecidableEq

/-- The all-zero record np.zeros produces for the loop_fit32 dtype. -/
def zero_guess_rec : GuessRec := ⟨List.replicate 9 0, 0⟩

/-- Record assembled from one cluster fit:
guess_parms[pix_inds] = hstack([fit.x, 1 - sum(abs(fit.fun ** 2))]). -/
def guess_record (f : FitRes) : GuessRec :=
  ⟨f.x, 1 - (f.res.map (fun q => |q * q|)).sum⟩

/-- One iteration of the assignment loop in _guess_loops: write the record
of cluster c into every position whose label is c. -/
def assemble_step (fits : Nat → FitRes) (labels : List Nat) (arr : List GuessRec)
    (c : Nat) : List GuessRec :=
  List.zipWith (fun a lb => if lb = c then guess_record (fits c) else a) arr labels

/-- Model of the final loop of _guess_loops: starting from np.zeros, for
clust_id in range(num_clusters) scatter the leaf cluster fit record into
the pixels labelled clust_id. -/
def guess_loops_assemble (labels : List Nat) (k : Nat) (fits : Nat → FitRes) :
    List GuessRec :=
  (List.range k).foldl (assemble_step fits labels)
    (List.replicate labels.length zero_guess_rec)

/- ============================================================ -/
/- Theorems                                                      -/
/- ============================================================ -/

/-- Claim C2 counterexample: with a 1 MB budget and a FORC cycle of
64 DC steps x 2000 loops x 5 compound fields x 4 bytes (8.96 MB with the
3.5x overhead), the chunk planner returns max_pos = 0.  The planner has no
error channel (it is a total function mirroring the source, which raises
nothing), so this refutes the claim that it returns at least 1 or reports
a configuration error. -/
theorem chunk_sizes_claim_counterexample :
    (get_sho_chunk_sizes 1 64 2000 5 4 16384 128000 2000 1 1).max_pos = 0 := by decide

/-- Claim C2 (amended): the planner returns
max_pos = min(num_pos, floor(budget_bytes / (record_bytes * 3.5))), which
always satisfies max_pos * record_bytes * 3.5 <= budget_bytes (here stated
with both sides doubled to stay in integers), and is clamped by the pixel
count; but it may be 0 and no configuration error exists. -/
theorem chunk_sizes_budget_bound (max_mem_mb num_dc_steps loops_per_forc num_dtype_fields
    itemsize num_pos sho_spec_cols met_spec_cols num_forcs num_forc_repeats : Nat)
    (hs : 0 < num_dc_steps * loops_per_forc * num_dtype_fields * itemsize) :
    (get_sho_chunk_sizes max_mem_mb num_dc_steps loops_per_forc num_dtype_fields itemsize
        num_pos sho_spec_cols met_spec_cols num_forcs num_forc_repeats).max_pos *
        (7 * (num_dc_steps * loops_per_forc * num_dtype_fields * itemsize))
      ≤ max_mem_mb * 1048576 * 2 ∧
    (get_sho_chunk_sizes max_mem_mb num_dc_steps loops_per_forc num_dtype_fields itemsize
        num_pos sho_spec_cols met_spec_cols num_forcs num_forc_repeats).max_pos ≤ num_pos := by
  refine ⟨?_, ?_⟩
  · have hd : (get_sho_chunk_sizes max_mem_mb num_dc_steps loops_per_forc num_dtype_fields
        itemsize num_pos sho_spec_cols met_spec_cols num_forcs num_forc_repeats).max_pos
        ≤ max_mem_mb * 1048576 * 2 /
            (7 * (num_dc_steps * loops_per_forc * num_dtype_fields * itemsize)) :=
      Nat.min_le_right _ _
    exact le_trans (Nat.mul_le_mul_right _ hd) (Nat.div_mul_le_self _ _)
  · exact Nat.min_le_left _ _

/-- Claim C2 witness for the amended theorem at a concrete input with a
large budget: the returned chunk size obeys the budget inequality. -/
theorem chunk_sizes_budget_bound_witness :
    (get_sho_chunk_sizes 100 4 2 5 4 10 64 8 1 1).max_pos * (7 * (4 * 2 * 5 * 4))
      ≤ 100 * 1048576 * 2 ∧
    (get_sho_chunk_sizes 100 4 2 5 4 10 64 8 1 1).max_pos ≤ 10 :=
  chunk_sizes_budget_bound 100 4 2 5 4 10 64 8 1 1 (by decide)

/-- Claim C4 counterexample: at num_loops = 15 the source computes
k = max(2, int(15 ** 0.5)) = 3, while the claimed formula
max(2, round(sqrt(15))) gives 4 (float arithmetic is exact here). -/
theorem num_clusters_counterexample :
    num_clusters 15 = 3 ∧ claimed_num_clusters 15 = 4 ∧
      num_clusters 15 ≠ claimed_num_clusters 15 := by
  have hs : Nat.sqrt 15 = 3 := by
    have h1 : 3 ≤ Nat.sqrt 15 := by rw [Nat.le_sqrt]; omega
    have h2 : Nat.sqrt 15 < 4 := by rw [Nat.sqrt_lt]; omega
    omega
  refine ⟨?_, ?_, ?_⟩ <;> simp [num_clusters, claimed_num_clusters, round_sqrt, hs]

/-- Claim C4 (amended): the guess cascade partitions the loops into
k = max(2, floor(sqrt(num_loops))) clusters; for num_loops >= 4 this is
exactly the floor of the square root, characterized by
k * k <= num_loops < (k+1) * (k+1). -/
theorem num_clusters_floor_sqrt (n : Nat) (h : 4 ≤ n) :
    2 ≤ num_clusters n ∧ num_clusters n = Nat.sqrt n ∧
      num_clusters n * num_clusters n ≤ n ∧ n < (num_clusters n + 1) * (num_clusters n + 1) := by
  have h2 : 2 ≤ Nat.sqrt n := by rw [Nat.le_sqrt]; omega
  have hmax : num_clusters n = Nat.sqrt n := by
    simp only [num_clusters]
    omega
  refine ⟨by omega, hmax, ?_, ?_⟩
  · rw [hmax]; exact Nat.sqrt_le n
  · rw [hmax]; exact Nat.lt_succ_sqrt n

/-- Claim C4 witness for the amended theorem at num_loops = 15: k = 3 and
9 <= 15 < 16. -/
theorem num_clusters_floor_sqrt_witness :
    2 ≤ num_clusters 15 ∧ num_clusters 15 = Nat.sqrt 15 ∧
      num_clusters 15 * num_clusters 15 ≤ 15 ∧
      15 < (num_clusters 15 + 1) * (num_clusters 15 + 1) :=
  num_clusters_floor_sqrt 15 (by decide)

/-- Claim C5: evaluation of the do_fit chunk loop at a failing input with
two distinct chunks.  The source fits EVERY chunk against the shifted
projected loops of the FIRST chunk (loops_2d_shifted is computed once
before the while loop and never refreshed), whereas the specified driver
uses each chunk own values: the two disagree on the second chunk. -/
theorem do_fit_stale_chunk_data :
    (do_fit_fit_inputs [0, 1, 0, -1] [[[1], [2], [3], [4]], [[5], [6], [7], [8]]]
        [[[0]], [[9]]]).map (fun inp => inp.1)
      = [(np_roll [[(1:ℚ)], [2], [3], [4]] (-1)).transpose,
         (np_roll [[(1:ℚ)], [2], [3], [4]] (-1)).transpose] ∧
    (do_fit_fit_inputs_spec [0, 1, 0, -1] [[[1], [2], [3], [4]], [[5], [6], [7], [8]]]
        [[[0]], [[9]]]).map (fun inp => inp.1)
      = [(np_roll [[(1:ℚ)], [2], [3], [4]] (-1)).transpose,
         (np_roll [[(5:ℚ)], [6], [7], [8]] (-1)).transpose] ∧
    (np_roll [[(1:ℚ)], [2], [3], [4]] (-1)).transpose
      ≠ (np_roll [[(5:ℚ)], [6], [7], [8]] (-1)).transpose := by decide

/-- Claim C8: when do_fit is invoked with no h5_guess argument and no guess
from a prior do_guess, the operation is a no-op: state is unchanged (in
particular no fit dataset is created) and the returned result is None. -/
theorem do_fit_requires_guess (st : LoopModelState) (f : List ℚ → List ℚ)
    (h : st.h5_guess = none) :
    do_fit_model st none f = (st, none) := by
  simp [do_fit_model, h]

/-- Claim C8 witness: the fresh state with no guess and no fit. -/
theorem do_fit_requires_guess_witness :
    do_fit_model ⟨none, none⟩ none (fun l => l) = (⟨none, none⟩, none) :=
  do_fit_requires_guess ⟨none, none⟩ (fun l => l) rfl

/-- Helper: regrouping the element-wise image of a flattened rectangular
table recovers the mapped table. -/
theorem chunk_rows_flatten_map {α β : Type} (c : Nat) (hc : 0 < c)
    (M : List (List α)) (f : α → β) (hrect : ∀ r ∈ M, r.length = c) :
    chunk_rows c (M.flatten.map f) = M.map (List.map f) := by
  induction M with
  | nil => simp [chunk_rows]
  | cons r0 rest ih =>
    have hr0 : r0.length = c := hrect r0 (by simp)
    have hlen : (r0.map f).length = c := by simp [hr0]
    have hpos : 0 < (r0.map f ++ rest.flatten.map f).length := by
      simp only [List.length_append, hlen]
      omega
    simp only [List.flatten_cons, List.map_append, List.map_cons]
    rw [chunk_rows]
    rw [dif_neg (by push_neg; omega)]
    rw [← hlen, List.take_left, List.drop_left]
    rw [hlen, ih (fun r hr => hrect r (by simp [hr]))]

/-- Claim C9: parameter extraction is a pure per-record function of the fit
table and the nucleation threshold.  For a rectangular fit table, the
result equals the record-wise application of the closed-form computation,
so the output depends on nothing but the table and the threshold, and any
re-run produces identical values. -/
theorem extract_loop_parameters_pure (calc_one : List ℚ → ℚ → List ℚ)
    (ft : List (List (List ℚ))) (t : ℚ) (c : Nat) (hc : 0 < c)
    (hrect : ∀ r ∈ ft, r.length = c) :
    extract_loop_parameters calc_one ft t
      = ft.map (fun row => row.map (fun rec => calc_one rec t)) := by
  cases ft with
  | nil =>
    simp [extract_loop_parameters, chunk_rows]
  | cons r0 rest =>
    have hr0 : r0.length = c := hrect r0 (by simp)
    simp only [extract_loop_parameters, List.headD_cons]
    rw [hr0]
    exact chunk_rows_flatten_map c hc (r0 :: rest) (fun rec => calc_one rec t) hrect

/-- Claim C9 witness: extraction at a concrete rectangular 2 x 2 table. -/
theorem extract_loop_parameters_pure_witness :
    extract_loop_parameters (fun r t => [r.headD 0 + t]) [[[1, 2], [3]], [[4], [5]]] 1
      = [[[1, 2], [3]], [[4], [5]]].map
          (fun row => row.map (fun rec => (fun (r : List ℚ) (t : ℚ) => [r.headD 0 + t]) rec 1)) :=
  extract_loop_parameters_pure (fun r t => [r.headD 0 + t]) [[[1, 2], [3]], [[4], [5]]] 1 2
    (by decide) (by decide)

/-- Claim C10: reading a stored guess chunk for fitting strips the last
field of each 10-field record, so the initial-guess vectors passed to the
solver hold exactly the nine model coefficients and never the R2 Criterion
goodness score. -/
theorem guess_chunk_strips_r2 (recs : List LoopFitRec) :
    get_guess_vec recs
      = recs.map (fun r => [r.a_0, r.a_1, r.a_2, r.a_3, r.a_4, r.b_0, r.b_1, r.b_2, r.b_3]) :=
  rfl

/-- Helper: getD of a mapped range at an in-bounds position. -/
theorem getD_map_range {β : Type} (N k : Nat) (f : Nat → β) (dflt : β) (hk : k < N) :
    ((List.range N).map f).getD k dflt = f k := by
  rw [List.getD_eq_getElem _ _ (by simpa using hk)]
  simp

/-- Helper: a list is recovered from its getD values over its range. -/
theorem map_getD_range {β : Type} (l : List β) (dflt : β) :
    (List.range l.length).map (fun k => l.getD k dflt) = l := by
  induction l with
  | nil => simp
  | cons a t ih =>
    rw [List.length_cons, List.range_succ_eq_map]
    simp only [List.map_cons, List.getD_cons_zero, List.map_map]
    have hfun : ((fun k => (a :: t).getD k dflt) ∘ fun k => k + 1) = fun k => t.getD k dflt := by
      funext k
      simp [List.getD_cons_succ]
    rw [hfun, ih]

/-- Helper: getD through a map at an in-bounds position. -/
theorem getD_map_lt {β : Type} (l : List Nat) (f : Nat → β) (j : Nat) (dflt : β)
    (h : j < l.length) :
    (l.map f).getD j dflt = f (l.getD j 0) := by
  rw [List.getD_eq_getElem _ _ (by simpa using h), List.getD_eq_getElem _ _ h]
  simp

/-- Helper: unflatten_index has the same length as the shape. -/
theorem unflatten_index_length (s : List Nat) (k : Nat) :
    (unflatten_index s k).length = s.length := by
  induction s generalizing k with
  | nil => rfl
  | cons d ds ih => simp [unflatten_index, ih]

/-- Helper: the flat index of a valid multi-index is below the size. -/
theorem flat_index_lt (s : List Nat) (idx : List Nat) (h : valid_index idx s) :
    flat_index s idx < s.prod := by
  induction s generalizing idx with
  | nil =>
    have h0 : idx = [] := List.length_eq_zero.mp h.1
    subst h0
    simp [flat_index]
  | cons d ds ih =>
    cases idx with
    | nil => exact absurd h.1 (by simp)
    | cons i is =>
      have hlis : is.length = ds.length := by have := h.1; simpa using this
      have hvis : valid_index is ds := by
        refine ⟨hlis, fun j hj => ?_⟩
        have := h.2 (j + 1) (by simpa using Nat.succ_lt_succ hj)
        simpa using this
      have hf : flat_index ds is < ds.prod := ih is hvis
      have hi : i < d := by have := h.2 0 (by simp); simpa using this
      show i * ds.prod + flat_index ds is < (d :: ds).prod
      rw [List.prod_cons]
      calc i * ds.prod + flat_index ds is < i * ds.prod + ds.prod := by omega
        _ = (i + 1) * ds.prod := by ring
        _ ≤ d * ds.prod := Nat.mul_le_mul_right _ (by omega)

/-- Helper: flattening the unflattened index recovers the flat position. -/
theorem flat_index_unflatten (s : List Nat) (k : Nat) (hk : k < s.prod) :
    flat_index s (unflatten_index s k) = k := by
  induction s generalizing k with
  | nil =>
    simp only [List.prod_nil] at hk
    simp only [unflatten_index, flat_index]
    omega
  | cons d ds ih =>
    rw [List.prod_cons] at hk
    rcases Nat.eq_zero_or_pos ds.prod with h0 | hP
    · rw [h0, Nat.mul_zero] at hk
      omega
    · simp only [unflatten_index, flat_index]
      rw [ih (k % ds.prod) (Nat.mod_lt _ hP)]
      rw [Nat.mul_comm (k / ds.prod) ds.prod]
      exact Nat.div_add_mod k ds.prod

/-- Helper: the unflattened index of an in-range flat position is valid. -/
theorem unflatten_index_valid (s : List Nat) (k : Nat) (hk : k < s.prod) :
    valid_index (unflatten_index s k) s := by
  induction s generalizing k with
  | nil => exact ⟨rfl, fun j hj => absurd hj (by simp)⟩
  | cons d ds ih =>
    rw [List.prod_cons] at hk
    rcases Nat.eq_zero_or_pos ds.prod with h0 | hP
    · rw [h0, Nat.mul_zero] at hk
      omega
    · have hv := ih (k % ds.prod) (Nat.mod_lt _ hP)
      constructor
      · simp [unflatten_index, hv.1]
      · intro j hj
        match j with
        | 0 =>
          simp only [unflatten_index, List.getD_cons_zero]
          exact Nat.div_lt_of_lt_mul (by rwa [Nat.mul_comm] at hk)
        | j + 1 =>
          simp only [unflatten_index, List.getD_cons_succ]
          exact hv.2 j (by simpa using hj)

/-- Helper: unflattening the flat index recovers a valid multi-index. -/
theorem unflatten_flat_index (s : List Nat) (idx : List Nat) (h : valid_index idx s) :
    unflatten_index s (flat_index s idx) = idx := by
  induction s generalizing idx with
  | nil =>
    have h0 : idx = [] := List.length_eq_zero.mp h.1
    subst h0
    rfl
  | cons d ds ih =>
    cases idx with
    | nil => exact absurd h.1 (by simp)
    | cons i is =>
      have hlis : is.length = ds.length := by have := h.1; simpa using this
      have hvis : valid_index is ds := by
        refine ⟨hlis, fun j hj => ?_⟩
        have := h.2 (j + 1) (by simpa using Nat.succ_lt_succ hj)
        simpa using this
      have hf : flat_index ds is < ds.prod := flat_index_lt ds is hvis
      have hP : 0 < ds.prod := by omega
      simp only [flat_index, unflatten_index]
      have hdiv : (i * ds.prod + flat_index ds is) / ds.prod = i := by
        rw [Nat.mul_comm i ds.prod, Nat.mul_add_div hP, Nat.div_eq_of_lt hf]
        omega
      have hmod : (i * ds.prod + flat_index ds is) % ds.prod = flat_index ds is := by
        rw [Nat.mul_comm i ds.prod, Nat.mul_add_mod]
        exact Nat.mod_eq_of_lt hf
      rw [hdiv, hmod, ih is hvis]

/-- Helper: find_pos distributes over append. -/
theorem find_pos_append (k : Nat) (l1 l2 : List Nat) :
    find_pos k (l1 ++ l2) = if k ∈ l1 then find_pos k l1 else l1.length + find_pos k l2 := by
  induction l1 with
  | nil => simp [find_pos]
  | cons a t ih =>
    simp only [List.cons_append, find_pos, List.append_eq]
    by_cases hak : a = k
    · subst hak
      simp [find_pos]
    · rw [if_neg hak, ih]
      by_cases hkt : k ∈ t
      · rw [if_pos hkt, if_pos (by simp [List.mem_cons, hkt]), if_neg hak]
      · rw [if_neg hkt, if_neg (by simp [List.mem_cons, hkt]; omega)]
        simp only [List.length_cons]
        omega

/-- Helper: find_pos of a value inside a range. -/
theorem find_pos_range (d k : Nat) (h : k < d) : find_pos k (List.range d) = k := by
  induction d with
  | zero => omega
  | succ m ih =>
    rw [List.range_succ, find_pos_append]
    by_cases hk : k < m
    · rw [if_pos (List.mem_range.mpr hk)]
      exact ih hk
    · have hkm : k = m := by omega
      subst hkm
      rw [if_neg (by simp [List.mem_range])]
      simp [find_pos, List.length_range]

/-- Helper: find_pos through a constant shift. -/
theorem find_pos_map_add (c k : Nat) (l : List Nat) :
    find_pos (k + c) (l.map (fun i => i + c)) = find_pos k l := by
  induction l with
  | nil => rfl
  | cons a t ih =>
    simp only [List.map_cons, find_pos]
    by_cases h : a = k
    · subst h
      simp
    · rw [if_neg (by omega), if_neg h, ih]

/-- Helper: length of the forward permutation. -/
theorem order_dc_outside_nd_length (d n : Nat) (hd : d < n) :
    (order_dc_outside_nd d n).length = n := by
  simp [order_dc_outside_nd]
  omega

/-- Helper: length of the reverse permutation. -/
theorem order_dc_offset_reverse_length (d n : Nat) (hd : d < n) :
    (order_dc_offset_reverse d n).length = n := by
  simp [order_dc_offset_reverse]
  omega

/-- Helper: closed form of the forward permutation entries. -/
theorem order_dc_outside_nd_getD (d n j : Nat) (hd : d < n) (hj : j < n) :
    (order_dc_outside_nd d n).getD j 0
      = if j = 0 then d else if j ≤ d then j - 1 else j := by
  match j with
  | 0 => simp [order_dc_outside_nd]
  | j + 1 =>
    simp only [order_dc_outside_nd, List.getD_cons_succ]
    by_cases hjd : j < d
    · rw [List.getD_append _ _ _ _ (by simp [List.length_range]; omega)]
      rw [List.getD_eq_getElem _ _ (by simp [List.length_range]; omega)]
      simp only [List.getElem_range]
      split_ifs <;> first | contradiction | omega
    · rw [List.getD_append_right _ _ _ _ (by simp [List.length_range]; omega)]
      rw [List.length_range]
      rw [getD_map_lt _ _ _ _ (by simp [List.length_range]; omega)]
      rw [List.getD_eq_getElem _ _ (by simp [List.length_range]; omega)]
      simp only [List.getElem_range]
      split_ifs <;> first | contradiction | omega

/-- Helper: closed form of the reverse permutation entries. -/
theorem order_dc_offset_reverse_getD (d n i : Nat) (hd : d < n) (hi : i < n) :
    (order_dc_offset_reverse d n).getD i 0
      = if i < d then i + 1 else if i = d then 0 else i := by
  simp only [order_dc_offset_reverse]
  by_cases h1 : i < d
  · rw [List.getD_append _ _ _ _ (by simp [List.length_range]; omega)]
    rw [getD_map_lt _ _ _ _ (by simp [List.length_range]; omega)]
    rw [List.getD_eq_getElem _ _ (by simp [List.length_range]; omega)]
    simp only [List.getElem_range]
    split_ifs <;> first | contradiction | omega
  · rw [List.getD_append_right _ _ _ _ (by simp [List.length_range]; omega)]
    simp only [List.length_map, List.length_range]
    by_cases h2 : i = d
    · subst h2
      simp
    · have hstep : i - d = (i - d - 1) + 1 := by omega
      rw [hstep, List.getD_cons_succ]
      rw [getD_map_lt _ _ _ _ (by simp [List.length_range]; omega)]
      rw [List.getD_eq_getElem _ _ (by simp [List.length_range]; omega)]
      simp only [List.getElem_range]
      split_ifs <;> first | contradiction | omega

/-- Helper: entries of the forward permutation are below n. -/
theorem order_dc_outside_nd_getD_lt (d n j : Nat) (hd : d < n) (hj : j < n) :
    (order_dc_outside_nd d n).getD j 0 < n := by
  rw [order_dc_outside_nd_getD d n j hd hj]
  split_ifs <;> first | contradiction | omega

/-- Helper: entries of the reverse permutation are below n. -/
theorem order_dc_offset_reverse_getD_lt (d n i : Nat) (hd : d < n) (hi : i < n) :
    (order_dc_offset_reverse d n).getD i 0 < n := by
  rw [order_dc_offset_reverse_getD d n i hd hi]
  split_ifs <;> first | contradiction | omega

/-- Helper: positions in the forward permutation are given by the reverse
permutation. -/
theorem find_pos_order_dc_outside (d n k : Nat) (hd : d < n) (hk : k < n) :
    find_pos k (order_dc_outside_nd d n) = (order_dc_offset_reverse d n).getD k 0 := by
  rw [order_dc_offset_reverse_getD d n k hd hk]
  simp only [order_dc_outside_nd, find_pos]
  by_cases hkd : d = k
  · subst hkd
    simp
  · rw [if_neg hkd, find_pos_append]
    by_cases hlt : k < d
    · rw [if_pos (List.mem_range.mpr hlt), find_pos_range d k hlt]
      rw [if_pos hlt]
    · have hgt : d < k := by omega
      rw [if_neg (by simp [List.mem_range]; omega), List.length_range]
      have hk1 : k = (k - (d + 1)) + (d + 1) := by omega
      rw [hk1, find_pos_map_add, find_pos_range _ _ (by omega)]
      split_ifs <;> first | contradiction | omega

/-- Helper: positions in the reverse permutation are given by the forward
permutation. -/
theorem find_pos_order_dc_offset_reverse (d n k : Nat) (hd : d < n) (hk : k < n) :
    find_pos k (order_dc_offset_reverse d n) = (order_dc_outside_nd d n).getD k 0 := by
  rw [order_dc_outside_nd_getD d n k hd hk]
  simp only [order_dc_offset_reverse]
  rw [find_pos_append]
  by_cases hk0 : k = 0
  · subst hk0
    rw [if_neg (by simp)]
    simp [find_pos, List.length_map, List.length_range]
  · by_cases hkd : k ≤ d
    · have hmem : k ∈ (List.range d).map (fun i => i + 1) :=
        List.mem_map.mpr ⟨k - 1, List.mem_range.mpr (by omega), by omega⟩
      rw [if_pos hmem]
      have hk1 : k = (k - 1) + 1 := by omega
      rw [hk1, find_pos_map_add, find_pos_range _ _ (by omega)]
      split_ifs <;> first | contradiction | omega
    · rw [if_neg (by simp [List.mem_range]; omega)]
      simp only [List.length_map, List.length_range, find_pos]
      rw [if_neg (by omega)]
      have hk1 : k = (k - (d + 1)) + (d + 1) := by omega
      rw [hk1, find_pos_map_add, find_pos_range _ _ (by omega)]
      split_ifs <;> first | contradiction | omega

/-- Helper: the forward permutation applied after the reverse one is the
identity on positions below n. -/
theorem order_out_rev_getD (d n i : Nat) (hd : d < n) (hi : i < n) :
    (order_dc_outside_nd d n).getD ((order_dc_offset_reverse d n).getD i 0) 0 = i := by
  rw [order_dc_offset_reverse_getD d n i hd hi]
  by_cases h1 : i < d
  · rw [if_pos h1, order_dc_outside_nd_getD d n (i + 1) hd (by omega)]
    split_ifs <;> first | contradiction | omega
  · by_cases h2 : i = d
    · rw [if_neg h1, if_pos h2, order_dc_outside_nd_getD d n 0 hd (by omega)]
      split_ifs <;> first | contradiction | omega
    · rw [if_neg h1, if_neg h2, order_dc_outside_nd_getD d n i hd hi]
      split_ifs <;> first | contradiction | omega

/-- Helper: the reverse permutation applied after the forward one is the
identity on positions below n. -/
theorem order_rev_out_getD (d n k : Nat) (hd : d < n) (hk : k < n) :
    (order_dc_offset_reverse d n).getD ((order_dc_outside_nd d n).getD k 0) 0 = k := by
  rw [order_dc_outside_nd_getD d n k hd hk]
  by_cases h1 : k = 0
  · rw [if_pos h1, order_dc_offset_reverse_getD d n d hd (by omega)]
    split_ifs <;> first | contradiction | omega
  · by_cases h2 : k ≤ d
    · rw [if_neg h1, if_pos h2, order_dc_offset_reverse_getD d n (k - 1) hd (by omega)]
      split_ifs <;> first | contradiction | omega
    · rw [if_neg h1, if_neg h2, order_dc_offset_reverse_getD d n k hd hk]
      split_ifs <;> first | contradiction | omega

/-- Helper: the shape of a transpose. -/
theorem np_transpose_shape {α : Type} [Inhabited α] (axes : List Nat) (x : NDArr α) :
    (np_transpose axes x).shape = axes.map (fun i => x.shape.getD i 0) := rfl

/-- Helper: the data length of a transpose equals its size. -/
theorem np_transpose_data_length {α : Type} [Inhabited α] (axes : List Nat) (x : NDArr α) :
    (np_transpose axes x).data.length = (np_transpose axes x).shape.prod := by
  show ((List.range _).map _).length = _
  simp [np_transpose_shape]

/-- Helper: random access into the data of a transpose. -/
theorem np_transpose_getD {α : Type} [Inhabited α] (axes : List Nat) (x : NDArr α) (k : Nat)
    (hk : k < ((np_transpose axes x).shape).prod) :
    (np_transpose axes x).data.getD k default
      = x.data.getD
          (flat_index x.shape (inv_apply axes (unflatten_index (np_transpose axes x).shape k)))
          default := by
  have hk2 : k < (axes.map (fun i => x.shape.getD i 0)).prod := hk
  exact getD_map_range ((axes.map (fun i => x.shape.getD i 0)).prod) k
    (fun k => x.data.getD
      (flat_index x.shape
        (inv_apply axes (unflatten_index (axes.map (fun i => x.shape.getD i 0)) k))) default)
    default hk2

/-- Helper: transposing by the forward permutation and then by the reverse
permutation returned by _reshape_sho_matrix restores the array exactly. -/
theorem np_transpose_roundtrip {α : Type} [Inhabited α] (a : NDArr α) (d : Nat)
    (hlen : a.data.length = a.shape.prod) (hd : d < a.shape.length) :
    np_transpose (order_dc_offset_reverse d a.shape.length)
      (np_transpose (order_dc_outside_nd d a.shape.length) a) = a := by
  obtain ⟨s, dat⟩ := a
  simp only at hlen hd
  have hplen : (order_dc_outside_nd d s.length).length = s.length :=
    order_dc_outside_nd_length _ _ hd
  have hqlen : (order_dc_offset_reverse d s.length).length = s.length :=
    order_dc_offset_reverse_length _ _ hd
  have hshape : (np_transpose (order_dc_offset_reverse d s.length)
      (np_transpose (order_dc_outside_nd d s.length) ⟨s, dat⟩)).shape = s := by
    rw [np_transpose_shape, np_transpose_shape]
    apply List.ext_getElem
    · simp [hqlen]
    · intro i h1 h2
      have hb1 : i < (order_dc_offset_reverse d s.length).length := by
        simpa [hqlen] using h2
      rw [← List.getD_eq_getElem _ 0 h1, ← List.getD_eq_getElem _ 0 h2]
      rw [getD_map_lt _ _ _ _ hb1]
      rw [getD_map_lt _ _ _ _ (by rw [hplen]; exact order_dc_offset_reverse_getD_lt d s.length i hd h2)]
      rw [order_out_rev_getD d s.length i hd h2]
  have hdata : (np_transpose (order_dc_offset_reverse d s.length)
      (np_transpose (order_dc_outside_nd d s.length) ⟨s, dat⟩)).data = dat := by
    have hlen2 : (np_transpose (order_dc_offset_reverse d s.length)
        (np_transpose (order_dc_outside_nd d s.length) ⟨s, dat⟩)).data.length = dat.length := by
      rw [np_transpose_data_length, hshape, hlen]
    apply List.ext_getElem hlen2
    intro k h1 h2
    have hks : k < s.prod := by rw [hlen] at h2; exact h2
    rw [← List.getD_eq_getElem _ default h1, ← List.getD_eq_getElem _ default h2]
    rw [np_transpose_getD _ _ k (by rw [hshape]; exact hks)]
    rw [hshape]
    have hvval : valid_index (unflatten_index s k) s := unflatten_index_valid s k hks
    have hwgetD : ∀ j, j < s.length →
        (inv_apply (order_dc_offset_reverse d s.length) (unflatten_index s k)).getD j 0
          = (unflatten_index s k).getD ((order_dc_outside_nd d s.length).getD j 0) 0 := by
      intro j hj
      simp only [inv_apply]
      rw [hqlen, getD_map_range _ _ _ _ hj]
      rw [find_pos_order_dc_offset_reverse d s.length j hd hj]
    have hwlen : (inv_apply (order_dc_offset_reverse d s.length) (unflatten_index s k)).length
        = s.length := by
      simp [inv_apply, hqlen]
    have hwvalid : valid_index
        (inv_apply (order_dc_offset_reverse d s.length) (unflatten_index s k))
        ((np_transpose (order_dc_outside_nd d s.length) ⟨s, dat⟩).shape) := by
      rw [np_transpose_shape]
      constructor
      · rw [hwlen]
        simp [hplen]
      · intro j hj
        have hjn : j < s.length := by simpa [hplen] using hj
        rw [hwgetD j hjn]
        rw [getD_map_lt _ _ _ _ (by rw [hplen]; exact hjn)]
        exact hvval.2 _ (order_dc_outside_nd_getD_lt d s.length j hd hjn)
    have hm0 : flat_index ((np_transpose (order_dc_outside_nd d s.length) ⟨s, dat⟩).shape)
        (inv_apply (order_dc_offset_reverse d s.length) (unflatten_index s k))
        < ((np_transpose (order_dc_outside_nd d s.length) ⟨s, dat⟩).shape).prod :=
      flat_index_lt _ _ hwvalid
    rw [np_transpose_getD _ _ _ hm0]
    rw [unflatten_flat_index _ _ hwvalid]
    have hpw : inv_apply (order_dc_outside_nd d s.length)
        (inv_apply (order_dc_offset_reverse d s.length) (unflatten_index s k))
        = unflatten_index s k := by
      apply List.ext_getElem
      · simp [inv_apply, hplen, hvval.1]
      · intro j hj1 hj2
        have hjn : j < s.length := by
          simpa [unflatten_index_length] using hj2
        rw [← List.getD_eq_getElem _ 0 hj1, ← List.getD_eq_getElem _ 0 hj2]
        simp only [inv_apply]
        rw [hplen, hqlen]
        rw [getD_map_range _ _ _ _ hjn]
        rw [find_pos_order_dc_outside d s.length j hd hjn]
        rw [getD_map_range _ _ _ _ (order_dc_offset_reverse_getD_lt d s.length j hd hjn)]
        rw [find_pos_order_dc_offset_reverse d s.length _ hd
          (order_dc_offset_reverse_getD_lt d s.length j hd hjn)]
        rw [order_out_rev_getD d s.length j hd hjn]
    show (⟨s, dat⟩ : NDArr α).data.getD
        (flat_index (⟨s, dat⟩ : NDArr α).shape
          (inv_apply (order_dc_outside_nd d s.length)
            (inv_apply (order_dc_offset_reverse d s.length) (unflatten_index s k)))) default
      = dat.getD k default
    rw [hpw]
    show dat.getD (flat_index s (unflatten_index s k)) default = dat.getD k default
    rw [flat_index_unflatten s k hks]
  calc np_transpose (order_dc_offset_reverse d s.length)
        (np_transpose (order_dc_outside_nd d s.length) ⟨s, dat⟩)
      = ⟨(np_transpose (order_dc_offset_reverse d s.length)
            (np_transpose (order_dc_outside_nd d s.length) ⟨s, dat⟩)).shape,
         (np_transpose (order_dc_offset_reverse d s.length)
            (np_transpose (order_dc_outside_nd d s.length) ⟨s, dat⟩)).data⟩ := rfl
    _ = ⟨s, dat⟩ := by rw [hshape, hdata]

/-- Claim C1: for every raw 2-D chunk whose element count is consistent
with the axis model (shape [pos, prod dims] with matching data length, any
DC axis position d below the tensor rank), the flatten transform
_reshape_sho_matrix succeeds, and the unflatten transform
_reshape_projected_loops_for_h5 applied to its outputs returns the
original chunk exactly, value for value. -/
theorem reshape_roundtrip (raw : NDArr ℚ) (dims : List Nat) (d pos : Nat)
    (hshape : raw.shape = [pos, dims.prod]) (hlen : raw.data.length = pos * dims.prod)
    (hd : d < dims.length + 1) :
    ∃ loops rord ndshape,
      reshape_sho_matrix raw dims d = some (loops, rord, ndshape) ∧
      reshape_projected_loops_for_h5 loops rord ndshape = some raw := by
  obtain ⟨rs, rd⟩ := raw
  simp only at hshape hlen
  subst hshape
  have h2N : reshape_to_Ndims (⟨[pos, dims.prod], rd⟩ : NDArr ℚ) dims
      = some ⟨pos :: dims, rd⟩ := by
    simp [reshape_to_Ndims, hlen]
  have hfitlen : (⟨pos :: dims, rd⟩ : NDArr ℚ).data.length
      = (⟨pos :: dims, rd⟩ : NDArr ℚ).shape.prod := by
    simp only [List.prod_cons]
    exact hlen
  have hfd : d < (⟨pos :: dims, rd⟩ : NDArr ℚ).shape.length := by
    simpa using hd
  have hrt := np_transpose_roundtrip (⟨pos :: dims, rd⟩ : NDArr ℚ) d hfitlen hfd
  have hlen1 : (⟨pos :: dims, rd⟩ : NDArr ℚ).shape.length = dims.length + 1 := by
    show (pos :: dims).length = dims.length + 1
    simp
  rw [hlen1] at hrt
  refine ⟨⟨[(np_transpose (order_dc_outside_nd d (dims.length + 1))
                (⟨pos :: dims, rd⟩ : NDArr ℚ)).shape.headD 0,
            ((np_transpose (order_dc_outside_nd d (dims.length + 1))
                (⟨pos :: dims, rd⟩ : NDArr ℚ)).shape.drop 1).prod],
           (np_transpose (order_dc_outside_nd d (dims.length + 1))
              (⟨pos :: dims, rd⟩ : NDArr ℚ)).data⟩,
          order_dc_offset_reverse d (dims.length + 1),
          (np_transpose (order_dc_outside_nd d (dims.length + 1))
            (⟨pos :: dims, rd⟩ : NDArr ℚ)).shape, ?_, ?_⟩
  · simp only [reshape_sho_matrix, h2N, List.length_cons]
  · simp only [reshape_projected_loops_for_h5]
    rw [if_pos (np_transpose_data_length _ _)]
    have heta : (⟨(np_transpose (order_dc_outside_nd d (dims.length + 1))
          ⟨pos :: dims, rd⟩).shape,
        (np_transpose (order_dc_outside_nd d (dims.length + 1))
          ⟨pos :: dims, rd⟩).data⟩ : NDArr ℚ)
        = np_transpose (order_dc_outside_nd d (dims.length + 1))
          ⟨pos :: dims, rd⟩ := rfl
    rw [heta, hrt]
    simp [reshape_from_Ndims]

/-- Claim C1 witness: a 2 x 6 chunk over axis model dims = [3, 2] with the
DC axis at tensor position 2 flattens and unflattens back to itself. -/
theorem reshape_roundtrip_witness :
    ∃ loops rord ndshape,
      reshape_sho_matrix (⟨[2, 6], [(0:ℚ), 1, 2, 3, 4, 5, 6, 7, 8, 9, 10, 11]⟩ : NDArr ℚ)
          [3, 2] 2 = some (loops, rord, ndshape) ∧
      reshape_projected_loops_for_h5 loops rord ndshape
        = some ⟨[2, 6], [(0:ℚ), 1, 2, 3, 4, 5, 6, 7, 8, 9, 10, 11]⟩ :=
  reshape_roundtrip _ [3, 2] 2 2 rfl (by decide) (by decide)

/-- Claim C3: when the column count of the raw chunk does not factor into
the axis model (cols differs from the product of the expected dimensions),
the flatten transform _reshape_sho_matrix fails explicitly with None (the
source warns and returns None, aborting the chunk), never truncating. -/
theorem reshape_sho_mismatch (raw : NDArr ℚ) (dims : List Nat) (d pos cols : Nat)
    (hshape : raw.shape = [pos, cols]) (hne : cols ≠ dims.prod) :
    reshape_sho_matrix raw dims d = none := by
  have h2N : reshape_to_Ndims raw dims = none := by
    simp [reshape_to_Ndims, hshape, hne]
  simp [reshape_sho_matrix, h2N]

/-- Claim C3 witness: a 1 x 5 chunk cannot be reshaped against axis model
dims = [2, 2] (5 does not factor as 4) and the flatten transform returns
None. -/
theorem reshape_sho_mismatch_witness :
    reshape_sho_matrix (⟨[1, 5], [(1:ℚ), 2, 3, 4, 5]⟩ : NDArr ℚ) [2, 2] 1 = none :=
  reshape_sho_mismatch _ [2, 2] 1 1 5 rfl (by decide)

/-- Helper: rfl-equation for loop_fit_tree on a leaf. -/
theorem loop_fit_tree_leaf (F : List ℚ → List ℚ → List ℚ → FitRes) (vdc : List ℚ)
    (sh : Int) (nm : Nat) (v : List ℚ) (gm : Nat → List ℚ) (fr : Nat → Option FitRes) :
    loop_fit_tree F vdc sh (CTree.leaf nm v) gm fr
      = (gm, fun k => if k = nm then some (F vdc (np_roll v sh) (gm nm)) else fr k) := rfl

/-- Helper: rfl-equation for loop_fit_tree on a branch. -/
theorem loop_fit_tree_branch (F : List ℚ → List ℚ → List ℚ → FitRes) (vdc : List ℚ)
    (sh : Int) (nm : Nat) (v : List ℚ) (l r : CTree) (gm : Nat → List ℚ)
    (fr : Nat → Option FitRes) :
    loop_fit_tree F vdc sh (CTree.branch nm v l r) gm fr
      = loop_fit_tree F vdc sh r
          (fun k => if k = r.name then (F vdc (np_roll v sh) (gm nm)).x
            else (loop_fit_tree F vdc sh l
              (fun k2 => if k2 = l.name then (F vdc (np_roll v sh) (gm nm)).x else gm k2)
              (fun k2 => if k2 = nm then some (F vdc (np_roll v sh) (gm nm)) else fr k2)).1 k)
          (loop_fit_tree F vdc sh l
            (fun k2 => if k2 = l.name then (F vdc (np_roll v sh) (gm nm)).x else gm k2)
            (fun k2 => if k2 = nm then some (F vdc (np_roll v sh) (gm nm)) else fr k2)).2 := rfl

/-- Helper: a pointwise update read back at its own point. -/
theorem update_self {α : Type} (m : Nat) (x : α) (f : Nat → α) :
    (fun k => if k = m then x else f k) m = x := by simp

/-- Helper: opt_or of a some. -/
theorem opt_or_some (v : FitRes) (x : Option FitRes) : opt_or (some v) x = some v := rfl

/-- Helper: opt_or of a none. -/
theorem opt_or_none (x : Option FitRes) : opt_or none x = x := rfl

/-- Helper: alookup distributes over append as a left-biased choice. -/
theorem alookup_append (n : Nat) (xs ys : List (Nat × FitRes)) :
    alookup n (xs ++ ys) = opt_or (alookup n xs) (alookup n ys) := by
  induction xs with
  | nil => simp [alookup, opt_or]
  | cons a t ih =>
    obtain ⟨k, v⟩ := a
    simp only [List.cons_append, alookup]
    by_cases h : n = k
    · simp [h, opt_or]
    · simp [h, ih]

/-- Helper: alookup misses exactly the names outside the key list. -/
theorem alookup_eq_none (n : Nat) (xs : List (Nat × FitRes))
    (h : n ∉ xs.map Prod.fst) : alookup n xs = none := by
  induction xs with
  | nil => rfl
  | cons a t ih =>
    obtain ⟨k, v⟩ := a
    simp only [List.map_cons, List.mem_cons] at h
    push_neg at h
    simp only [alookup]
    rw [if_neg h.1]
    exact ih h.2

/-- Helper: alookup hits every name in the key list. -/
theorem alookup_isSome_of_mem (n : Nat) (xs : List (Nat × FitRes))
    (h : n ∈ xs.map Prod.fst) : ∃ v, alookup n xs = some v := by
  induction xs with
  | nil => simp at h
  | cons a t ih =>
    obtain ⟨k, v⟩ := a
    simp only [List.map_cons, List.mem_cons] at h
    by_cases hn : n = k
    · exact ⟨v, by simp [alookup, hn]⟩
    · obtain ⟨w, hw⟩ := ih (h.resolve_left hn)
      exact ⟨w, by simp [alookup, hn, hw]⟩

/-- Helper: the keys of tree_fits are exactly the node names. -/
theorem tree_fits_keys (F : List ℚ → List ℚ → List ℚ → FitRes) (vdc : List ℚ) (sh : Int) :
    ∀ (t : CTree) (g : List ℚ), (tree_fits F vdc sh g t).map Prod.fst = t.names := by
  intro t
  induction t with
  | leaf nm v => intro g; simp [tree_fits, CTree.names]
  | branch nm v l r ihl ihr =>
    intro g
    simp [tree_fits, CTree.names, ihl, ihr]

/-- Helper: tree_fits records the fit of the root under the root name. -/
theorem alookup_tree_fits_self (F : List ℚ → List ℚ → List ℚ → FitRes) (vdc : List ℚ)
    (sh : Int) (g : List ℚ) (t : CTree) :
    alookup t.name (tree_fits F vdc sh g t)
      = some (F vdc (np_roll t.value sh) g) := by
  cases t with
  | leaf nm v => simp [tree_fits, alookup, CTree.name, CTree.value]
  | branch nm v l r => simp [tree_fits, alookup, CTree.name, CTree.value]

/-- Helper: the root name is among the node names. -/
theorem name_mem_names (t : CTree) : t.name ∈ t.names := by
  cases t with
  | leaf nm v => simp [CTree.name, CTree.names]
  | branch nm v l r => simp [CTree.name, CTree.names]

/-- Helper: both ends of an edge are nodes of the tree. -/
theorem child_pairs_mem_names (t : CTree) :
    ∀ p c, (p, c) ∈ child_pairs t → p.name ∈ t.names ∧ c.name ∈ t.names := by
  induction t with
  | leaf nm v => intro p c h; simp [child_pairs] at h
  | branch nm v l r ihl ihr =>
    intro p c h
    simp only [child_pairs, List.mem_cons, List.mem_append, Prod.mk.injEq] at h
    rcases h with ⟨hp, hc⟩ | ⟨hp, hc⟩ | h | h
    · subst hp
      constructor
      · simp [CTree.name, CTree.names]
      · rw [hc]
        simp only [CTree.names, List.mem_cons, List.mem_append]
        exact Or.inr (Or.inl (name_mem_names l))
    · subst hp
      constructor
      · simp [CTree.name, CTree.names]
      · rw [hc]
        simp only [CTree.names, List.mem_cons, List.mem_append]
        exact Or.inr (Or.inr (name_mem_names r))
    · obtain ⟨h1, h2⟩ := ihl p c h
      constructor <;> simp only [CTree.names, List.mem_cons, List.mem_append]
      · exact Or.inr (Or.inl h1)
      · exact Or.inr (Or.inl h2)
    · obtain ⟨h1, h2⟩ := ihr p c h
      constructor <;> simp only [CTree.names, List.mem_cons, List.mem_append]
      · exact Or.inr (Or.inr h1)
      · exact Or.inr (Or.inr h2)

/-- Helper: the state-threading tree fit agrees with the reference
recursion: after the run, the fit stored under any name is the tree_fits
entry when the name is a node, and the prior store otherwise. -/
theorem loop_fit_tree_eq_tree_fits (F : List ℚ → List ℚ → List ℚ → FitRes)
    (vdc : List ℚ) (sh : Int) :
    ∀ (t : CTree), t.names.Nodup →
      ∀ (gm : Nat → List ℚ) (fr : Nat → Option FitRes) (n : Nat),
        (loop_fit_tree F vdc sh t gm fr).2 n
          = opt_or (alookup n (tree_fits F vdc sh (gm t.name) t)) (fr n) := by
  intro t
  induction t with
  | leaf nm v =>
    intro hnd gm fr n
    simp only [loop_fit_tree_leaf, tree_fits, CTree.name, alookup]
    by_cases h : n = nm
    · simp [h, opt_or]
    · simp [h, opt_or]
  | branch nm v l r ihl ihr =>
    intro hnd gm fr n
    simp only [CTree.names, List.nodup_cons, List.nodup_append, List.mem_append] at hnd
    obtain ⟨hnm, hl, hr, hdisj⟩ := hnd
    rw [loop_fit_tree_branch, ihr hr]
    rw [if_pos (show r.name = r.name from rfl)]
    rw [ihl hl]
    rw [if_pos (show l.name = l.name from rfl)]
    simp only [tree_fits, CTree.name, alookup, alookup_append]
    by_cases hn : n = nm
    · subst hn
      rw [alookup_eq_none n (tree_fits F vdc sh (F vdc (np_roll v sh) (gm n)).x r)
          (by rw [tree_fits_keys]; exact fun h => hnm (Or.inr h))]
      rw [alookup_eq_none n (tree_fits F vdc sh (F vdc (np_roll v sh) (gm n)).x l)
          (by rw [tree_fits_keys]; exact fun h => hnm (Or.inl h))]
      simp [opt_or]
    · by_cases hml : n ∈ l.names
      · rw [alookup_eq_none n (tree_fits F vdc sh (F vdc (np_roll v sh) (gm nm)).x r)
            (by rw [tree_fits_keys]; exact hdisj hml)]
        obtain ⟨w, hw⟩ := alookup_isSome_of_mem n
          (tree_fits F vdc sh (F vdc (np_roll v sh) (gm nm)).x l)
          (by rw [tree_fits_keys]; exact hml)
        rw [hw]
        simp [opt_or, hn]
      · by_cases hmr : n ∈ r.names
        · obtain ⟨w, hw⟩ := alookup_isSome_of_mem n
            (tree_fits F vdc sh (F vdc (np_roll v sh) (gm nm)).x r)
            (by rw [tree_fits_keys]; exact hmr)
          rw [hw]
          rw [alookup_eq_none n (tree_fits F vdc sh (F vdc (np_roll v sh) (gm nm)).x l)
              (by rw [tree_fits_keys]; exact fun h => hdisj h hmr)]
          simp [opt_or, hn]
        · rw [alookup_eq_none n (tree_fits F vdc sh (F vdc (np_roll v sh) (gm nm)).x r)
              (by rw [tree_fits_keys]; exact hmr)]
          rw [alookup_eq_none n (tree_fits F vdc sh (F vdc (np_roll v sh) (gm nm)).x l)
              (by rw [tree_fits_keys]; exact hml)]
          simp [opt_or, hn]

/-- Helper: in the reference recursion, every edge is fitted with the
child seeded by the parent fit coefficients. -/
theorem tree_fits_pair (F : List ℚ → List ℚ → List ℚ → FitRes) (vdc : List ℚ) (sh : Int) :
    ∀ (t : CTree), t.names.Nodup → ∀ (g : List ℚ) (p c : CTree),
      (p, c) ∈ child_pairs t →
      ∃ fp, alookup p.name (tree_fits F vdc sh g t) = some fp ∧
        alookup c.name (tree_fits F vdc sh g t)
          = some (F vdc (np_roll c.value sh) fp.x) := by
  intro t
  induction t with
  | leaf nm v => intro hnd g p c h; simp [child_pairs] at h
  | branch nm v l r ihl ihr =>
    intro hnd g p c h
    simp only [CTree.names, List.nodup_cons, List.nodup_append, List.mem_append] at hnd
    obtain ⟨hnm, hl, hr, hdisj⟩ := hnd
    simp only [child_pairs, List.mem_cons, List.mem_append, Prod.mk.injEq] at h
    simp only [tree_fits, alookup_append, alookup]
    rcases h with ⟨hp, hc⟩ | ⟨hp, hc⟩ | h | h
    · subst hp
      rw [hc]
      refine ⟨F vdc (np_roll v sh) g, ?_, ?_⟩
      · simp [CTree.name]
      · have hln : l.name ≠ nm := fun hcon => hnm (Or.inl (hcon ▸ name_mem_names l))
        rw [if_neg hln]
        rw [alookup_tree_fits_self]
        simp [opt_or]
    · subst hp
      rw [hc]
      refine ⟨F vdc (np_roll v sh) g, ?_, ?_⟩
      · simp [CTree.name]
      · have hrn : r.name ≠ nm := fun hcon => hnm (Or.inr (hcon ▸ name_mem_names r))
        rw [if_neg hrn]
        rw [alookup_eq_none _ _ (by
          rw [tree_fits_keys]
          exact fun hcon => hdisj hcon (name_mem_names r))]
        rw [alookup_tree_fits_self]
        simp [opt_or]
    · obtain ⟨fp, hp1, hp2⟩ := ihl hl (F vdc (np_roll v sh) g).x p c h
      obtain ⟨hpn, hcn⟩ := child_pairs_mem_names l p c h
      refine ⟨fp, ?_, ?_⟩
      · rw [if_neg (by intro hcon; exact hnm (Or.inl (hcon ▸ hpn))), hp1]
        simp [opt_or]
      · rw [if_neg (by intro hcon; exact hnm (Or.inl (hcon ▸ hcn))), hp2]
        simp [opt_or]
    · obtain ⟨fp, hp1, hp2⟩ := ihr hr (F vdc (np_roll v sh) g).x p c h
      obtain ⟨hpn, hcn⟩ := child_pairs_mem_names r p c h
      refine ⟨fp, ?_, ?_⟩
      · rw [if_neg (by intro hcon; exact hnm (Or.inr (hcon ▸ hpn)))]
        rw [alookup_eq_none _ _ (by
          rw [tree_fits_keys]
          exact fun hcon => hdisj hcon hpn), hp1]
        simp [opt_or]
      · rw [if_neg (by intro hcon; exact hnm (Or.inr (hcon ▸ hcn)))]
        rw [alookup_eq_none _ _ (by
          rw [tree_fits_keys]
          exact fun hcon => hdisj hcon hcn), hp2]
        simp [opt_or]

/-- Claim C6: running the guess cascade tree walk over a cluster tree with
distinct node names, every node receives a recorded fit, and for every
(parent, child) edge the child fit equals the fit function applied to the
child mean curve (rolled by the shift) seeded with EXACTLY the parent fit
coefficients (the x vector, a row of the 9-column guess matrix) — so every
node down to every leaf is fitted from its parent result. -/
theorem loop_fit_tree_parent_seed (F : List ℚ → List ℚ → List ℚ → FitRes)
    (vdc : List ℚ) (sh : Int) (t : CTree) (gm : Nat → List ℚ) (fr : Nat → Option FitRes)
    (hnd : t.names.Nodup) :
    (∀ n ∈ t.names, ((loop_fit_tree F vdc sh t gm fr).2 n).isSome) ∧
    (∀ p c, (p, c) ∈ child_pairs t → ∃ fp,
      (loop_fit_tree F vdc sh t gm fr).2 p.name = some fp ∧
      (loop_fit_tree F vdc sh t gm fr).2 c.name
        = some (F vdc (np_roll c.value sh) fp.x)) := by
  constructor
  · intro n hmemb
    rw [loop_fit_tree_eq_tree_fits F vdc sh t hnd gm fr n]
    obtain ⟨v, hv⟩ := alookup_isSome_of_mem n (tree_fits F vdc sh (gm t.name) t)
      (by rw [tree_fits_keys]; exact hmemb)
    rw [hv]
    simp [opt_or]
  · intro p c hpc
    obtain ⟨fp, hp, hc⟩ := tree_fits_pair F vdc sh t hnd (gm t.name) p c hpc
    refine ⟨fp, ?_, ?_⟩
    · rw [loop_fit_tree_eq_tree_fits F vdc sh t hnd gm fr p.name, hp]
      rfl
    · rw [loop_fit_tree_eq_tree_fits F vdc sh t hnd gm fr c.name, hc]
      rfl

/-- Claim C6 witness: a three-node tree (root 2 with leaves 0 and 1) with
a concrete fit function; the cascade fits every node and seeds both
children from the root coefficients. -/
theorem loop_fit_tree_parent_seed_witness :
    (∀ n ∈ (CTree.branch 2 [5] (CTree.leaf 0 [6]) (CTree.leaf 1 [7])).names,
      ((loop_fit_tree (fun vdc curve g => ⟨curve, g ++ vdc⟩) [4] 1
          (CTree.branch 2 [5] (CTree.leaf 0 [6]) (CTree.leaf 1 [7]))
          (fun _ => [3]) (fun _ => none)).2 n).isSome) ∧
    (∀ p c, (p, c) ∈ child_pairs (CTree.branch 2 [5] (CTree.leaf 0 [6]) (CTree.leaf 1 [7])) →
      ∃ fp,
        (loop_fit_tree (fun vdc curve g => ⟨curve, g ++ vdc⟩) [4] 1
            (CTree.branch 2 [5] (CTree.leaf 0 [6]) (CTree.leaf 1 [7]))
            (fun _ => [3]) (fun _ => none)).2 p.name = some fp ∧
        (loop_fit_tree (fun vdc curve g => ⟨curve, g ++ vdc⟩) [4] 1
            (CTree.branch 2 [5] (CTree.leaf 0 [6]) (CTree.leaf 1 [7]))
            (fun _ => [3]) (fun _ => none)).2 c.name
          = some ((fun (vdc curve g : List ℚ) => (⟨curve, g ++ vdc⟩ : FitRes)) [4]
              (np_roll c.value 1) fp.x)) :=
  loop_fit_tree_parent_seed (fun vdc curve g => ⟨curve, g ++ vdc⟩) [4] 1
    (CTree.branch 2 [5] (CTree.leaf 0 [6]) (CTree.leaf 1 [7]))
    (fun _ => [3]) (fun _ => none) (by decide)

/-- Helper: the scatter loop preserves the array length. -/
theorem assemble_fold_length (fits : Nat → FitRes) (labels : List Nat) :
    ∀ (m : Nat) (arr : List GuessRec), arr.length = labels.length →
      ((List.range m).foldl (assemble_step fits labels) arr).length = labels.length := by
  intro m
  induction m with
  | zero => intro arr h; simpa using h
  | succ m ih =>
    intro arr h
    rw [List.range_succ, List.foldl_append, List.foldl_cons, List.foldl_nil]
    have hA := ih arr h
    simp [assemble_step, List.length_zipWith, hA]

/-- Helper: one scatter step read at a position. -/
theorem assemble_step_getD (fits : Nat → FitRes) (labels : List Nat)
    (arr : List GuessRec) (c p : Nat) (hp : p < labels.length)
    (hlen : arr.length = labels.length) :
    (assemble_step fits labels arr c).getD p zero_guess_rec
      = if labels.getD p 0 = c then guess_record (fits c)
        else arr.getD p zero_guess_rec := by
  have hlt : p < (assemble_step fits labels arr c).length := by
    simp [assemble_step, List.length_zipWith, hlen, hp]
  rw [List.getD_eq_getElem _ _ hlt]
  simp only [assemble_step]
  rw [List.getElem_zipWith]
  have hlab : labels[p] = labels.getD p 0 := (List.getD_eq_getElem labels 0 hp).symm
  by_cases hc : labels.getD p 0 = c
  · rw [if_pos hc, if_pos (by rw [hlab]; exact hc)]
  · rw [if_neg hc, if_neg (by rw [hlab]; exact hc)]
    exact (List.getD_eq_getElem arr zero_guess_rec (by omega)).symm

/-- Helper: the scatter loop writes, at each labelled position, the record
of the cluster the label maps to. -/
theorem assemble_fold_getD (fits : Nat → FitRes) (labels : List Nat) (p : Nat)
    (hp : p < labels.length) :
    ∀ (m : Nat) (arr : List GuessRec), arr.length = labels.length →
      ((List.range m).foldl (assemble_step fits labels) arr).getD p zero_guess_rec
        = if labels.getD p 0 < m then guess_record (fits (labels.getD p 0))
          else arr.getD p zero_guess_rec := by
  intro m
  induction m with
  | zero => intro arr hlen; simp
  | succ m ih =>
    intro arr hlen
    rw [List.range_succ, List.foldl_append, List.foldl_cons, List.foldl_nil]
    rw [assemble_step_getD fits labels _ m p hp (assemble_fold_length fits labels m arr hlen)]
    rw [ih arr hlen]
    by_cases h1 : labels.getD p 0 = m
    · rw [if_pos h1, if_pos (by omega), h1]
    · rw [if_neg h1]
      by_cases h2 : labels.getD p 0 < m
      · rw [if_pos h2, if_pos (by omega)]
      · rw [if_neg h2, if_neg (by omega)]

/-- Claim C7: for every pixel whose cluster label is within the cluster
count, the guess record assigned by _guess_loops is the fit coefficients
(the x vector) of the leaf cluster the label maps to, together with the
goodness score R2 = 1 - sum of the absolute squared residual entries of
that leaf fit (a sum, not a mean). -/
theorem guess_assigns_leaf_fit (labels : List Nat) (k : Nat) (fits : Nat → FitRes)
    (p : Nat) (hp : p < labels.length) (hk : labels.getD p 0 < k) :
    (guess_loops_assemble labels k fits).getD p zero_guess_rec
      = ⟨(fits (labels.getD p 0)).x,
         1 - (((fits (labels.getD p 0)).res).map (fun q => |q * q|)).sum⟩ := by
  show ((List.range k).foldl (assemble_step fits labels)
      (List.replicate labels.length zero_guess_rec)).getD p zero_guess_rec = _
  rw [assemble_fold_getD fits labels p hp k (List.replicate labels.length zero_guess_rec)
      (List.length_replicate _ _)]
  rw [if_pos hk]
  rfl

/-- Claim C7 witness: three pixels labelled [0, 1, 0] over two clusters;
pixel 2 receives the cluster-0 fit coefficients and goodness score. -/
theorem guess_assigns_leaf_fit_witness :
    (guess_loops_assemble [0, 1, 0] 2 (fun c => ⟨[(c : ℚ)], [2]⟩)).getD 2 zero_guess_rec
      = ⟨((fun (c : Nat) => (⟨[(c : ℚ)], [2]⟩ : FitRes)) (([0, 1, 0] : List Nat).getD 2 0)).x,
         1 - ((((fun (c : Nat) => (⟨[(c : ℚ)], [2]⟩ : FitRes)) (([0, 1, 0] : List Nat).getD 2 0)).res).map
            (fun q => |q * q|)).sum⟩ :=
  guess_assigns_leaf_fit [0, 1, 0] 2 (fun c => ⟨[(c : ℚ)], [2]⟩) 2 (by decide) (by decide)
